import Mathlib

/-!
Verification of the smart-prioritizer task-selection core.

Shallow embedding of the bounded-budget task selector of the repository:

* `knapsackOptimization` embeds the dynamic-programming 0/1 knapsack of
  the file srcalgorithms knapsack, operating on exact rationals in place of
  JS numbers (finite doubles are rationals; the additions and comparisons
  appearing in the algorithm are idealized as exact).
* `select` embeds the selection effect of the component OptimizedTaskList:
  filter out completed tasks, early-return on an empty list, run the
  knapsack, and fall back to the single most important task when the
  knapsack selects nothing.
* A second model over `JSNum` (rationals extended with NaN and the two
  infinities) captures the behaviour of the same code on non-finite inputs.

Modelling notes, recorded once here:

* A JS array of length `L` can only be created for integer `0 ≤ L ≤ 2^32 - 1`;
  otherwise construction of the dp table raises a RangeError.  The model
  returns `Except.error JSError.rangeError` exactly in that case.
* Reads outside the bounds of a JS array yield undefined, so the include
  value `taskValue + dp[i-1][w - taskTime]` is NaN whenever `w - taskTime`
  falls outside `0 .. W`, and a comparison against NaN is false.  The model
  folds this into the branch condition `incCond`: the include branch can
  only win when `w - taskTime` is inside the table.
* `dp[n][W]` is undefined (not a number) when `W < 0`, since the rows then
  have length `W + 1 ≤ 0`; the model gives `totalValue` the type
  `Option ℚ` and returns `none` in that case.
-/

namespace SmartPrioritizer

/-- A task record, restricted to the fields the algorithms read:
`importance` (the knapsack value), `time` (the knapsack cost, floored to
integer minutes before use) and the `completed` flag (used only by the
component-level filter). -/
structure Task where
  importance : ℚ
  time : ℚ
  completed : Bool
deriving DecidableEq, Repr

instance : Inhabited Task := ⟨⟨0, 0, false⟩⟩

/-- The only error class the code can actually raise on numeric input:
a RangeError from an invalid JS array length. -/
inductive JSError
  | rangeError
deriving DecidableEq, Repr

/-- Largest valid JS array length, 2^32 - 1. -/
def maxArrayLength : ℤ := 4294967295

/-- Result record of knapsackOptimization.  `totalValue` is an `Option`
because the code returns the (undefined) table entry dp n W when W = -1. -/
structure KnapsackResult where
  selectedTasks : List Task
  totalValue : Option ℚ
  remainingTime : ℤ
deriving DecidableEq, Repr

/-- The dp table of knapsackOptimization: `dpTab tasks W i w` is the value
stored at dp i w, the best achievable total importance using the first
`i` tasks within floored budget `w`.  Row 0 is all zeros; row `i+1` takes
the include branch exactly when the include value strictly beats the
exclude value (JS test includeTask > excludeTask) and the looked-up cell
`w - taskTime` exists in the table (otherwise the include value is NaN and
the strict comparison is false). -/
def dpTab (tasks : List Task) (W : ℤ) : ℕ → ℤ → ℚ
  | 0, _ => 0
  | i + 1, w =>
    let t := tasks.getD i default
    let c := ⌊t.time⌋
    if 0 ≤ w ∧ w ≤ W ∧ c ≤ w ∧ w - c ≤ W ∧
        dpTab tasks W i w < t.importance + dpTab tasks W i (w - c) then
      t.importance + dpTab tasks W i (w - c)
    else
      dpTab tasks W i w

/-- The condition under which cell (i+1, w) of the `included` table is true:
the cell exists (`0 ≤ w ≤ W`), the task fits (`taskTime ≤ w`), the
looked-up cell exists (`w - taskTime ≤ W`), and including strictly
increases the value. -/
def incCond (tasks : List Task) (W : ℤ) (i : ℕ) (w : ℤ) : Prop :=
  0 ≤ w ∧ w ≤ W ∧ ⌊(tasks.getD i default).time⌋ ≤ w ∧
    w - ⌊(tasks.getD i default).time⌋ ≤ W ∧
    dpTab tasks W i w <
      (tasks.getD i default).importance +
        dpTab tasks W i (w - ⌊(tasks.getD i default).time⌋)

instance (tasks : List Task) (W : ℤ) (i : ℕ) (w : ℤ) :
    Decidable (incCond tasks W i w) := by
  unfold incCond; infer_instance

/-- The reconstruction walk of knapsackOptimization, from row `i` down to
row 0, threading the remaining weight; returns the selected tasks in the
order the source pushes them (highest row first) together with the final
remaining weight. -/
def reconAux (tasks : List Task) (W : ℤ) : ℕ → ℤ → List Task × ℤ
  | 0, rw => ([], rw)
  | i + 1, rw =>
    if incCond tasks W i rw then
      let t := tasks.getD i default
      let p := reconAux tasks W i (rw - ⌊t.time⌋)
      (t :: p.1, p.2)
    else
      reconAux tasks W i rw

/-- Embedding of knapsackOptimization from srcalgorithms knapsack.
`W = ⌊timeLimit⌋`; creating the dp rows `Array(W + 1)` (and the row array
`Array(n + 1)`) raises a RangeError when the length is not a valid array
length; otherwise the table is filled and the solution reconstructed. -/
def knapsackOptimization (tasks : List Task) (timeLimit : ℚ) :
    Except JSError KnapsackResult :=
  let W := ⌊timeLimit⌋
  if W + 1 < 0 ∨ maxArrayLength < W + 1 ∨
      maxArrayLength < (tasks.length : ℤ) + 1 then
    .error .rangeError
  else
    let p := reconAux tasks W tasks.length W
    .ok ⟨p.1, if 0 ≤ W then some (dpTab tasks W tasks.length W) else none, p.2⟩

/-- Strict precedence of `a` over `b` under the fallback comparator of
OptimizedTaskList: higher importance first, ties broken by lower time. -/
def strictlyBetterFB (a b : Task) : Prop :=
  b.importance < a.importance ∨
    (a.importance = b.importance ∧ a.time < b.time)

instance (a b : Task) : Decidable (strictlyBetterFB a b) := by
  unfold strictlyBetterFB; infer_instance

/-- The head of the stable sort of `l` under the fallback comparator,
i.e. the earliest element that no other element strictly precedes.
The source sorts a copy of the list with a consistent comparator and takes
element 0; for such a comparator the head of any stable sort is exactly
the earliest comparator-minimal element, which this fold computes. -/
def mostImportantTask : List Task → Task
  | [] => default
  | t :: rest => rest.foldl (fun best s => if strictlyBetterFB s best then s else best) t

/-- Result record of the component-level selection (the spec's
SelectionResult): chosen tasks, total value and remaining time as the
component stores them. -/
structure SelectionResult where
  selectedTasks : List Task
  totalValue : Option ℚ
  remainingTime : ℚ
deriving DecidableEq, Repr

/-- Embedding of the selection effect of OptimizedTaskList: filter out
completed tasks; on an empty remainder return no tasks, value 0 and the
original (un-floored) time limit; otherwise run the knapsack and, when it
selects nothing, fall back to the single most important task, reporting
`timeLimit - task.time` as remaining time. -/
def select (tasks : List Task) (timeLimit : ℚ) :
    Except JSError SelectionResult :=
  let incompleteTasks := tasks.filter (fun t => !t.completed)
  if incompleteTasks.isEmpty then
    .ok ⟨[], some 0, timeLimit⟩
  else
    let mostImportant := mostImportantTask incompleteTasks
    match knapsackOptimization incompleteTasks timeLimit with
    | .error e => .error e
    | .ok r =>
      if r.selectedTasks.isEmpty then
        .ok ⟨[mostImportant], some mostImportant.importance,
             timeLimit - mostImportant.time⟩
      else
        .ok ⟨r.selectedTasks, r.totalValue, (r.remainingTime : ℚ)⟩

/-- Sum of the importance values of a list of tasks. -/
def sumVal (l : List Task) : ℚ := (l.map Task.importance).sum

/-- Sum of the floored times of a list of tasks. -/
def sumTime (l : List Task) : ℤ := (l.map (fun t => ⌊t.time⌋)).sum

/-- Twin of the reconstruction walk that records the zero-based input
indices of the selected tasks instead of the tasks themselves. -/
def reconIdx (tasks : List Task) (W : ℤ) : ℕ → ℤ → List ℕ
  | 0, _ => []
  | i + 1, rw =>
    if incCond tasks W i rw then
      i :: reconIdx tasks W i (rw - ⌊(tasks.getD i default).time⌋)
    else
      reconIdx tasks W i rw

/-- A JS number: a finite value (idealized as an exact rational), one of
the two infinities, or NaN. -/
inductive JSNum
  | nan
  | inf
  | ninf
  | fin (q : ℚ)
deriving DecidableEq, Repr

/-- JS addition on possibly non-finite numbers (finite addition idealized
as exact): NaN propagates, opposite infinities give NaN, otherwise an
infinity absorbs. -/
def jsAdd : JSNum → JSNum → JSNum
  | .nan, _ => .nan
  | _, .nan => .nan
  | .inf, .ninf => .nan
  | .ninf, .inf => .nan
  | .inf, _ => .inf
  | _, .inf => .inf
  | .ninf, _ => .ninf
  | _, .ninf => .ninf
  | .fin a, .fin b => .fin (a + b)

/-- JS strict greater-than: false whenever NaN is involved. -/
def jsGt : JSNum → JSNum → Bool
  | .nan, _ => false
  | _, .nan => false
  | .inf, .inf => false
  | .inf, _ => true
  | .ninf, _ => false
  | .fin _, .inf => false
  | .fin _, .ninf => true
  | .fin a, .fin b => decide (b < a)

/-- A task as seen by the JS-number model of the knapsack: only the two
numeric fields are read. -/
structure TaskJS where
  importance : JSNum
  time : JSNum
deriving DecidableEq, Repr

instance : Inhabited TaskJS := ⟨⟨.fin 0, .fin 0⟩⟩

/-- Result record of the JS-number model. -/
structure KnapsackResultJS where
  selectedTasks : List TaskJS
  totalValue : Option JSNum
  remainingTime : ℤ
deriving DecidableEq, Repr

/-- The dp table over JS numbers.  A task whose time is NaN or +Infinity
never satisfies taskTime <= w; one whose time is -Infinity makes the
include lookup land at index +Infinity, so the include value is NaN and
the strict comparison is false: in all three cases the exclude branch is
taken, which the catch-all arm models. -/
def dpTabJS (tasks : List TaskJS) (W : ℤ) : ℕ → ℤ → JSNum
  | 0, _ => .fin 0
  | i + 1, w =>
    match (tasks.getD i default).time with
    | .fin q =>
      if 0 ≤ w ∧ w ≤ W ∧ ⌊q⌋ ≤ w ∧ w - ⌊q⌋ ≤ W ∧
          jsGt (jsAdd (tasks.getD i default).importance
                  (dpTabJS tasks W i (w - ⌊q⌋)))
               (dpTabJS tasks W i w) = true then
        jsAdd (tasks.getD i default).importance (dpTabJS tasks W i (w - ⌊q⌋))
      else dpTabJS tasks W i w
    | _ => dpTabJS tasks W i w

/-- The reconstruction walk over JS numbers, mirroring `dpTabJS`. -/
def reconJS (tasks : List TaskJS) (W : ℤ) : ℕ → ℤ → List TaskJS × ℤ
  | 0, rw => ([], rw)
  | i + 1, rw =>
    match (tasks.getD i default).time with
    | .fin q =>
      if 0 ≤ rw ∧ rw ≤ W ∧ ⌊q⌋ ≤ rw ∧ rw - ⌊q⌋ ≤ W ∧
          jsGt (jsAdd (tasks.getD i default).importance
                  (dpTabJS tasks W i (rw - ⌊q⌋)))
               (dpTabJS tasks W i rw) = true then
        ((tasks.getD i default) :: (reconJS tasks W i (rw - ⌊q⌋)).1,
         (reconJS tasks W i (rw - ⌊q⌋)).2)
      else reconJS tasks W i rw
    | _ => reconJS tasks W i rw

/-- knapsackOptimization over JS numbers, including non-finite inputs.
`Math.floor` of a non-finite budget is non-finite, so `Array(W + 1)`
raises a RangeError; non-finite task fields are never checked anywhere. -/
def knapsackOptimizationJS (tasks : List TaskJS) (timeLimit : JSNum) :
    Except JSError KnapsackResultJS :=
  match timeLimit with
  | .fin q =>
    if ⌊q⌋ + 1 < 0 ∨ maxArrayLength < ⌊q⌋ + 1 ∨
        maxArrayLength < (tasks.length : ℤ) + 1 then
      .error .rangeError
    else
      .ok ⟨(reconJS tasks ⌊q⌋ tasks.length ⌊q⌋).1,
           if 0 ≤ ⌊q⌋ then some (dpTabJS tasks ⌊q⌋ tasks.length ⌊q⌋) else none,
           (reconJS tasks ⌊q⌋ tasks.length ⌊q⌋).2⟩
  | _ => .error .rangeError

@[simp] theorem importance_mk (v t : ℚ) (c : Bool) :
    Task.importance ⟨v, t, c⟩ = v := rfl

@[simp] theorem time_mk (v t : ℚ) (c : Bool) :
    Task.time ⟨v, t, c⟩ = t := rfl

@[simp] theorem completed_mk (v t : ℚ) (c : Bool) :
    Task.completed ⟨v, t, c⟩ = c := rfl

@[simp] theorem importanceJS_mk (v t : JSNum) :
    TaskJS.importance ⟨v, t⟩ = v := rfl

@[simp] theorem timeJS_mk (v t : JSNum) :
    TaskJS.time ⟨v, t⟩ = t := rfl

theorem dpTab_succ (tasks : List Task) (W : ℤ) (i : ℕ) (w : ℤ) :
    dpTab tasks W (i + 1) w =
      if incCond tasks W i w then
        (tasks.getD i default).importance +
          dpTab tasks W i (w - ⌊(tasks.getD i default).time⌋)
      else dpTab tasks W i w := by
  simp only [dpTab, incCond]

@[simp] theorem sumVal_nil : sumVal [] = 0 := rfl

@[simp] theorem sumVal_cons (t : Task) (l : List Task) :
    sumVal (t :: l) = t.importance + sumVal l := by
  simp [sumVal]

@[simp] theorem sumVal_append (l₁ l₂ : List Task) :
    sumVal (l₁ ++ l₂) = sumVal l₁ + sumVal l₂ := by
  simp [sumVal]

@[simp] theorem sumTime_nil : sumTime [] = 0 := rfl

@[simp] theorem sumTime_cons (t : Task) (l : List Task) :
    sumTime (t :: l) = ⌊t.time⌋ + sumTime l := by
  simp [sumTime]

@[simp] theorem sumTime_append (l₁ l₂ : List Task) :
    sumTime (l₁ ++ l₂) = sumTime l₁ + sumTime l₂ := by
  simp [sumTime]

@[simp] theorem sumVal_reverse (l : List Task) :
    sumVal l.reverse = sumVal l := by
  simp [sumVal, List.map_reverse, List.sum_reverse]

@[simp] theorem sumTime_reverse (l : List Task) :
    sumTime l.reverse = sumTime l := by
  simp [sumTime, List.map_reverse, List.sum_reverse]

theorem dpTab_le_succ (tasks : List Task) (W : ℤ) (i : ℕ) (w : ℤ) :
    dpTab tasks W i w ≤ dpTab tasks W (i + 1) w := by
  rw [dpTab_succ]
  split
  · next h => exact le_of_lt h.2.2.2.2
  · exact le_refl _

theorem include_le_dpTab_succ (tasks : List Task) (W : ℤ) (i : ℕ) (w : ℤ)
    (h0 : 0 ≤ w) (hW : w ≤ W)
    (hc : ⌊(tasks.getD i default).time⌋ ≤ w)
    (hcW : w - ⌊(tasks.getD i default).time⌋ ≤ W) :
    (tasks.getD i default).importance +
        dpTab tasks W i (w - ⌊(tasks.getD i default).time⌋) ≤
      dpTab tasks W (i + 1) w := by
  rw [dpTab_succ]
  by_cases hinc : incCond tasks W i w
  · rw [if_pos hinc]
  · rw [if_neg hinc]
    simp only [incCond] at hinc
    push_neg at hinc
    exact hinc h0 hW hc hcW

theorem getD_eq_default_of_le (tasks : List Task) (i : ℕ)
    (h : tasks.length ≤ i) : tasks.getD i default = default := by
  simp [List.getD_eq_getElem?_getD, List.getElem?_eq_none h]

theorem not_incCond_of_le_length (tasks : List Task) (W : ℤ) (i : ℕ) (w : ℤ)
    (h : tasks.length ≤ i) : ¬ incCond tasks W i w := by
  intro hinc
  unfold incCond at hinc
  rw [getD_eq_default_of_le tasks i h] at hinc
  have h5 := hinc.2.2.2.2
  simp only [Inhabited.default, Int.floor_zero, sub_zero, zero_add,
    lt_self_iff_false] at h5

theorem getD_eq_getElem_of_lt (tasks : List Task) (i : ℕ)
    (h : i < tasks.length) : tasks.getD i default = tasks[i] := by
  simp [List.getD_eq_getElem?_getD, List.getElem?_eq_getElem h]

theorem take_succ_of_lt (tasks : List Task) (i : ℕ) (h : i < tasks.length) :
    tasks.take (i + 1) = tasks.take i ++ [tasks[i]] := by
  rw [List.take_succ]
  simp [List.getElem?_eq_getElem h]

theorem take_succ_of_le (tasks : List Task) (i : ℕ) (h : tasks.length ≤ i) :
    tasks.take (i + 1) = tasks.take i := by
  rw [List.take_succ]
  simp [List.getElem?_eq_none h]

/-- Walk invariants of the reconstruction loop: starting at row `i` with an
in-range remaining weight `rw`, the selected tasks (reversed) form a
sublist of the first `i` tasks, their total importance is exactly the
table entry at `(i, rw)`, and the final remaining weight is `rw` minus
their total floored time and stays inside `0 .. W`. -/
theorem reconAux_spec (tasks : List Task) (W : ℤ) :
    ∀ (i : ℕ) (rw : ℤ), 0 ≤ rw → rw ≤ W →
      (reconAux tasks W i rw).1.reverse.Sublist (tasks.take i) ∧
      sumVal (reconAux tasks W i rw).1 = dpTab tasks W i rw ∧
      (reconAux tasks W i rw).2 = rw - sumTime (reconAux tasks W i rw).1 ∧
      0 ≤ (reconAux tasks W i rw).2 ∧ (reconAux tasks W i rw).2 ≤ W := by
  intro i
  induction i with
  | zero =>
    intro rw h0 hW
    simp [reconAux, dpTab, h0, hW]
  | succ i ih =>
    intro rw h0 hW
    by_cases hinc : incCond tasks W i rw
    · have hlt : i < tasks.length := by
        by_contra hge
        exact not_incCond_of_le_length tasks W i rw (Nat.le_of_not_lt hge) hinc
      have hc := hinc.2.2.1
      have hcW := hinc.2.2.2.1
      have h0' : 0 ≤ rw - ⌊(tasks.getD i default).time⌋ := by omega
      obtain ⟨ihsub, ihval, ihrem, ihlo, ihhi⟩ := ih _ h0' hcW
      have hre : reconAux tasks W (i + 1) rw =
          ((tasks.getD i default) ::
            (reconAux tasks W i (rw - ⌊(tasks.getD i default).time⌋)).1,
           (reconAux tasks W i (rw - ⌊(tasks.getD i default).time⌋)).2) := by
        simp only [reconAux, if_pos hinc]
      rw [hre]
      refine ⟨?_, ?_, ?_, ihlo, ihhi⟩
      · simp only [List.reverse_cons]
        rw [take_succ_of_lt tasks i hlt, ← getD_eq_getElem_of_lt tasks i hlt]
        exact List.Sublist.append ihsub (List.Sublist.refl _)
      · rw [sumVal_cons, ihval, dpTab_succ, if_pos hinc]
      · rw [sumTime_cons, ihrem]
        ring
    · have hre : reconAux tasks W (i + 1) rw = reconAux tasks W i rw := by
        simp only [reconAux, if_neg hinc]
      rw [hre]
      obtain ⟨ihsub, ihval, ihrem, ihlo, ihhi⟩ := ih rw h0 hW
      refine ⟨?_, ?_, ihrem, ihlo, ihhi⟩
      · refine ihsub.trans ?_
        rw [List.take_succ]
        exact List.sublist_append_left _ _
      · rw [ihval, dpTab_succ, if_neg hinc]

/-- The dp table dominates every feasible sublist: any sublist of the first
`i` tasks whose total floored time fits in `w` has total importance at
most the table entry at `(i, w)`.  Requires non-negative times. -/
theorem sumVal_le_dpTab (tasks : List Task) (W : ℤ)
    (htime : ∀ t ∈ tasks, 0 ≤ t.time) :
    ∀ (i : ℕ) (w : ℤ), 0 ≤ w → w ≤ W → ∀ S : List Task,
      S.Sublist (tasks.take i) → sumTime S ≤ w → sumVal S ≤ dpTab tasks W i w := by
  intro i
  induction i with
  | zero =>
    intro w h0 hW S hS _
    rw [List.take_zero, List.sublist_nil] at hS
    simp [hS, dpTab]
  | succ i ih =>
    intro w h0 hW S hS htS
    by_cases hlt : i < tasks.length
    · rw [take_succ_of_lt tasks i hlt, List.sublist_append_iff] at hS
      obtain ⟨S₁, S₂, rfl, hS₁, hS₂⟩ := hS
      rw [List.sublist_singleton] at hS₂
      rcases hS₂ with rfl | rfl
      · rw [List.append_nil] at *
        exact (ih w h0 hW S₁ hS₁ htS).trans (dpTab_le_succ tasks W i w)
      · have hmem : tasks[i] ∈ tasks := List.getElem_mem hlt
        have hgd : tasks.getD i default = tasks[i] := getD_eq_getElem_of_lt tasks i hlt
        have hc0 : 0 ≤ ⌊(tasks[i]).time⌋ := Int.floor_nonneg.mpr (htime _ hmem)
        have hS₁nonneg : 0 ≤ sumTime S₁ := by
          apply List.sum_nonneg
          intro x hx
          simp only [List.mem_map] at hx
          obtain ⟨t, ht, rfl⟩ := hx
          have : t ∈ tasks := List.Sublist.mem ht (hS₁.trans (List.take_sublist i tasks))
          exact Int.floor_nonneg.mpr (htime t this)
        have hsum : sumTime S₁ + ⌊(tasks[i]).time⌋ ≤ w := by
          have := htS
          rw [sumTime_append, sumTime_cons, sumTime_nil, add_zero] at this
          omega
        have hc : ⌊(tasks[i]).time⌋ ≤ w := by omega
        have hcW : w - ⌊(tasks[i]).time⌋ ≤ W := by omega
        have h0' : 0 ≤ w - ⌊(tasks[i]).time⌋ := by omega
        have hrec : sumVal S₁ ≤ dpTab tasks W i (w - ⌊(tasks[i]).time⌋) := by
          apply ih _ h0' hcW S₁ hS₁
          omega
        have hinc := include_le_dpTab_succ tasks W i w h0 hW
          (by rw [hgd]; exact hc) (by rw [hgd]; exact hcW)
        rw [hgd] at hinc
        calc sumVal (S₁ ++ [tasks[i]])
            = (tasks[i]).importance + sumVal S₁ := by
              rw [sumVal_append, sumVal_cons, sumVal_nil]; ring
          _ ≤ (tasks[i]).importance + dpTab tasks W i (w - ⌊(tasks[i]).time⌋) := by
              linarith
          _ ≤ dpTab tasks W (i + 1) w := hinc
    · rw [take_succ_of_le tasks i (Nat.le_of_not_lt hlt)] at hS
      exact (ih w h0 hW S hS htS).trans (dpTab_le_succ tasks W i w)

/-- With a negative remaining weight nothing is ever included: the
included table has no cell there. -/
theorem reconAux_of_neg (tasks : List Task) (W : ℤ) :
    ∀ (i : ℕ) (rw : ℤ), rw < 0 → reconAux tasks W i rw = ([], rw) := by
  intro i
  induction i with
  | zero => intro rw _; rfl
  | succ i ih =>
    intro rw hrw
    have hninc : ¬ incCond tasks W i rw := by
      intro hinc
      exact absurd hinc.1 (by omega)
    simp only [reconAux, if_neg hninc]
    exact ih rw hrw

/-- When every task's floored time exceeds `W`, nothing is ever included. -/
theorem reconAux_of_infeasible (tasks : List Task) (W : ℤ)
    (hall : ∀ t ∈ tasks, W < ⌊t.time⌋) :
    ∀ (i : ℕ) (rw : ℤ), reconAux tasks W i rw = ([], rw) := by
  intro i
  induction i with
  | zero => intro rw; rfl
  | succ i ih =>
    intro rw
    have hninc : ¬ incCond tasks W i rw := by
      intro hinc
      by_cases hlt : i < tasks.length
      · have hmem : tasks.getD i default ∈ tasks := by
          rw [getD_eq_getElem_of_lt tasks i hlt]
          exact List.getElem_mem hlt
        have := hall _ hmem
        have h2 := hinc.2.1
        have h3 := hinc.2.2.1
        omega
      · exact not_incCond_of_le_length tasks W i rw (Nat.le_of_not_lt hlt) hinc
    simp only [reconAux, if_neg hninc]
    exact ih rw

/-- If the walk starting at weight `W` selects anything, then `0 ≤ W`. -/
theorem nonneg_of_reconAux_ne_nil (tasks : List Task) (W : ℤ) (i : ℕ)
    (h : (reconAux tasks W i W).1 ≠ []) : 0 ≤ W := by
  by_contra hneg
  rw [reconAux_of_neg tasks W i W (by omega)] at h
  exact h rfl

theorem strictlyBetterFB_irrefl (a : Task) : ¬ strictlyBetterFB a a := by
  unfold strictlyBetterFB
  push_neg
  exact ⟨le_refl _, fun _ => le_refl _⟩

theorem strictlyBetterFB_trans (a b r : Task)
    (h1 : strictlyBetterFB a b) (h2 : strictlyBetterFB b r) :
    strictlyBetterFB a r := by
  unfold strictlyBetterFB at *
  rcases h1 with h1 | ⟨h1a, h1b⟩ <;> rcases h2 with h2 | ⟨h2a, h2b⟩
  · left; linarith
  · left; linarith
  · left; linarith
  · right; exact ⟨by linarith, by linarith⟩

theorem strictlyBetterFB_resolve (t b r : Task)
    (h1 : ¬ strictlyBetterFB t b) (h2 : strictlyBetterFB t r) :
    strictlyBetterFB b r := by
  unfold strictlyBetterFB at *
  push_neg at h1
  obtain ⟨h1a, h1b⟩ := h1
  rcases h2 with h2 | ⟨h2a, h2b⟩
  · left; linarith
  · rcases lt_or_eq_of_le h1a with h | h
    · left; linarith
    · right
      refine ⟨by linarith, ?_⟩
      have := h1b h
      linarith

theorem foldl_best_shape (f : Task → Task → Task)
    (hf : ∀ b s, f b s = s ∨ f b s = b) :
    ∀ (l : List Task) (b : Task), l.foldl f b = b ∨ l.foldl f b ∈ l := by
  intro l
  induction l with
  | nil => intro b; left; rfl
  | cons t l ih =>
    intro b
    rcases ih (f b t) with h | h
    · rcases hf b t with h2 | h2 <;> rw [List.foldl_cons] at *
      · right; rw [h, h2]; exact List.mem_cons_self _ _
      · left; rw [h, h2]
    · right
      rw [List.foldl_cons]
      exact List.mem_cons_of_mem _ h

theorem foldl_best_not_beaten :
    ∀ (l : List Task) (b s : Task), (s ∈ l ∨ s = b) →
      ¬ strictlyBetterFB s
        (l.foldl (fun best u => if strictlyBetterFB u best then u else best) b) := by
  intro l
  induction l with
  | nil =>
    intro b s hs
    rcases hs with h | hsb
    · exact absurd h (List.not_mem_nil s)
    · rw [List.foldl_nil, hsb]
      exact strictlyBetterFB_irrefl b
  | cons t l ih =>
    intro b s hs
    rw [List.foldl_cons]
    by_cases hSB : strictlyBetterFB t b
    · rw [if_pos hSB]
      rcases hs with hmem | hsb
      · rcases List.mem_cons.mp hmem with hst | hmem
        · subst hst
          exact ih s s (Or.inr rfl)
        · exact ih t s (Or.inl hmem)
      · subst hsb
        intro hcon
        exact ih t t (Or.inr rfl) (strictlyBetterFB_trans t s _ hSB hcon)
    · rw [if_neg hSB]
      rcases hs with hmem | hsb
      · rcases List.mem_cons.mp hmem with hst | hmem
        · subst hst
          intro hcon
          exact ih b b (Or.inr rfl) (strictlyBetterFB_resolve s b _ hSB hcon)
        · exact ih b s (Or.inl hmem)
      · subst hsb
        exact ih s s (Or.inr rfl)

theorem mostImportantTask_mem (l : List Task) (h : l ≠ []) :
    mostImportantTask l ∈ l := by
  cases l with
  | nil => exact absurd rfl h
  | cons t rest =>
    rw [mostImportantTask]
    rcases foldl_best_shape (fun best u => if strictlyBetterFB u best then u else best)
      (fun b u => by dsimp only; split <;> simp) rest t with h2 | h2
    · rw [h2]; exact List.mem_cons_self _ _
    · exact List.mem_cons_of_mem _ h2

theorem mostImportantTask_best (l : List Task) (s : Task) (hs : s ∈ l) :
    ¬ strictlyBetterFB s (mostImportantTask l) := by
  cases l with
  | nil => exact absurd hs (List.not_mem_nil s)
  | cons t rest =>
    rw [mostImportantTask]
    rcases List.mem_cons.mp hs with hst | hmem
    · subst hst
      exact foldl_best_not_beaten rest s s (Or.inr rfl)
    · exact foldl_best_not_beaten rest t s (Or.inl hmem)

theorem reconIdx_lt (tasks : List Task) (W : ℤ) :
    ∀ (i : ℕ) (rw : ℤ), ∀ j ∈ reconIdx tasks W i rw, j < i := by
  intro i
  induction i with
  | zero => intro rw j hj; exact absurd hj (List.not_mem_nil j)
  | succ i ih =>
    intro rw j hj
    by_cases hinc : incCond tasks W i rw
    · rw [reconIdx, if_pos hinc] at hj
      rcases List.mem_cons.mp hj with rfl | hj
      · omega
      · exact Nat.lt_succ_of_lt (ih _ j hj)
    · rw [reconIdx, if_neg hinc] at hj
      exact Nat.lt_succ_of_lt (ih _ j hj)

theorem reconIdx_sorted (tasks : List Task) (W : ℤ) :
    ∀ (i : ℕ) (rw : ℤ), (reconIdx tasks W i rw).Pairwise (fun a b => b < a) := by
  intro i
  induction i with
  | zero => intro rw; exact List.Pairwise.nil
  | succ i ih =>
    intro rw
    by_cases hinc : incCond tasks W i rw
    · rw [reconIdx, if_pos hinc]
      exact List.Pairwise.cons (fun j hj => reconIdx_lt tasks W i _ j hj) (ih _)
    · rw [reconIdx, if_neg hinc]
      exact ih _

theorem reconAux_fst_eq_map_reconIdx (tasks : List Task) (W : ℤ) :
    ∀ (i : ℕ) (rw : ℤ),
      (reconAux tasks W i rw).1 =
        (reconIdx tasks W i rw).map (fun j => tasks.getD j default) := by
  intro i
  induction i with
  | zero => intro rw; rfl
  | succ i ih =>
    intro rw
    by_cases hinc : incCond tasks W i rw
    · rw [reconIdx, if_pos hinc]
      simp only [reconAux, if_pos hinc, List.map_cons]
      rw [ih]
    · rw [reconIdx, if_neg hinc]
      simp only [reconAux, if_neg hinc]
      exact ih _

/-- A task with floored time 0 and strictly positive importance is picked
up by the reconstruction walk at every row above it. -/
theorem zeroCost_mem_reconAux (tasks : List Task) (W : ℤ) (i : ℕ)
    (hc : ⌊(tasks.getD i default).time⌋ = 0)
    (hv : 0 < (tasks.getD i default).importance) :
    ∀ (j : ℕ), i < j → ∀ (rw : ℤ), 0 ≤ rw → rw ≤ W →
      tasks.getD i default ∈ (reconAux tasks W j rw).1 := by
  intro j
  induction j with
  | zero => intro h; omega
  | succ j ih =>
    intro hij rw h0 hW
    rcases Nat.lt_succ_iff_lt_or_eq.mp hij with hlt | rfl
    · by_cases hinc : incCond tasks W j rw
      · have h0' : 0 ≤ rw - ⌊(tasks.getD j default).time⌋ := by
          have := hinc.2.2.1; omega
        have hW' := hinc.2.2.2.1
        simp only [reconAux, if_pos hinc]
        exact List.mem_cons_of_mem _ (ih hlt _ h0' hW')
      · simp only [reconAux, if_neg hinc]
        exact ih hlt rw h0 hW
    · have hinc : incCond tasks W i rw := by
        refine ⟨h0, hW, by omega, by omega, ?_⟩
        rw [hc, sub_zero]
        linarith
      simp only [reconAux, if_pos hinc]
      exact List.mem_cons_self _ _

/-- Unfolding of knapsackOptimization when every array length is valid. -/
theorem knapsackOptimization_ok (tasks : List Task) (b : ℚ)
    (h1 : -1 ≤ ⌊b⌋) (h2 : ⌊b⌋ + 1 ≤ maxArrayLength)
    (h3 : (tasks.length : ℤ) + 1 ≤ maxArrayLength) :
    knapsackOptimization tasks b =
      .ok ⟨(reconAux tasks ⌊b⌋ tasks.length ⌊b⌋).1,
           if 0 ≤ ⌊b⌋ then some (dpTab tasks ⌊b⌋ tasks.length ⌊b⌋) else none,
           (reconAux tasks ⌊b⌋ tasks.length ⌊b⌋).2⟩ := by
  unfold knapsackOptimization
  rw [if_neg]
  push_neg
  exact ⟨by omega, by omega, by omega⟩

theorem knapsackOptimization_error (tasks : List Task) (b : ℚ)
    (h1 : ⌊b⌋ + 1 < 0) :
    knapsackOptimization tasks b = .error .rangeError := by
  unfold knapsackOptimization
  rw [if_pos]
  left
  omega

theorem select_general (tasks : List Task) (b : ℚ) (k : KnapsackResult)
    (hinc : tasks.filter (fun t => !t.completed) ≠ [])
    (hk : knapsackOptimization (tasks.filter (fun t => !t.completed)) b = .ok k)
    (hne : k.selectedTasks ≠ []) :
    select tasks b = .ok ⟨k.selectedTasks, k.totalValue, (k.remainingTime : ℚ)⟩ := by
  unfold select
  rw [if_neg (by simpa [List.isEmpty_iff] using hinc), hk]
  simp only []
  rw [if_neg (by simpa [List.isEmpty_iff] using hne)]

theorem select_fallback (tasks : List Task) (b : ℚ) (k : KnapsackResult)
    (hinc : tasks.filter (fun t => !t.completed) ≠ [])
    (hk : knapsackOptimization (tasks.filter (fun t => !t.completed)) b = .ok k)
    (hsel : k.selectedTasks = []) :
    select tasks b =
      .ok ⟨[mostImportantTask (tasks.filter (fun t => !t.completed))],
           some (mostImportantTask (tasks.filter (fun t => !t.completed))).importance,
           b - (mostImportantTask (tasks.filter (fun t => !t.completed))).time⟩ := by
  unfold select
  rw [if_neg (by simpa [List.isEmpty_iff] using hinc), hk]
  simp only []
  rw [if_pos (by simpa [List.isEmpty_iff] using hsel)]

theorem select_error (tasks : List Task) (b : ℚ) (e : JSError)
    (hinc : tasks.filter (fun t => !t.completed) ≠ [])
    (hk : knapsackOptimization (tasks.filter (fun t => !t.completed)) b = .error e) :
    select tasks b = .error e := by
  unfold select
  rw [if_neg (by simpa [List.isEmpty_iff] using hinc), hk]

/-- Inversion: a successful knapsack run pins down the result record and
the validity of the two array lengths. -/
theorem knapsackOptimization_ok_inv (tasks : List Task) (b : ℚ)
    (k : KnapsackResult) (hk : knapsackOptimization tasks b = .ok k) :
    -1 ≤ ⌊b⌋ ∧ ⌊b⌋ + 1 ≤ maxArrayLength ∧
      (tasks.length : ℤ) + 1 ≤ maxArrayLength ∧
      k = ⟨(reconAux tasks ⌊b⌋ tasks.length ⌊b⌋).1,
           if 0 ≤ ⌊b⌋ then some (dpTab tasks ⌊b⌋ tasks.length ⌊b⌋) else none,
           (reconAux tasks ⌊b⌋ tasks.length ⌊b⌋).2⟩ := by
  unfold knapsackOptimization at hk
  by_cases hg : ⌊b⌋ + 1 < 0 ∨ maxArrayLength < ⌊b⌋ + 1 ∨
      maxArrayLength < (tasks.length : ℤ) + 1
  · rw [if_pos hg] at hk
    exact absurd hk (by simp)
  · rw [if_neg hg] at hk
    push_neg at hg
    obtain ⟨hg1, hg2, hg3⟩ := hg
    refine ⟨by omega, by omega, by omega, ?_⟩
    exact (Except.ok.injEq _ _ ).mp hk.symm ▸ rfl

/-- C9: on the DP path (knapsackOptimization itself), with a non-negative
floored budget and non-negative task times, the selected tasks' total
floored time never exceeds the floored budget, and the reported remaining
time is never negative. -/
theorem dpPath_budget_invariant (tasks : List Task) (b : ℚ) (k : KnapsackResult)
    (hW : 0 ≤ ⌊b⌋) (htime : ∀ t ∈ tasks, 0 ≤ t.time)
    (hk : knapsackOptimization tasks b = .ok k) :
    sumTime k.selectedTasks ≤ ⌊b⌋ ∧ 0 ≤ k.remainingTime := by
  obtain ⟨-, -, -, rfl⟩ := knapsackOptimization_ok_inv tasks b k hk
  obtain ⟨-, -, hrem, hlo, -⟩ :=
    reconAux_spec tasks ⌊b⌋ tasks.length ⌊b⌋ hW (le_refl _)
  constructor
  · simp only []
    omega
  · simpa using hlo

/-- C9 witness. -/
theorem dpPath_budget_invariant_witness :
    sumTime (KnapsackResult.selectedTasks ⟨[⟨1, 1, false⟩], some 1, 1⟩) ≤ ⌊(2:ℚ)⌋ ∧
      0 ≤ KnapsackResult.remainingTime ⟨[⟨1, 1, false⟩], some 1, 1⟩ := by
  apply dpPath_budget_invariant [⟨1, 1, false⟩] 2
  · norm_num
  · intro t ht
    simp only [List.mem_singleton] at ht
    subst ht
    norm_num
  · norm_num [knapsackOptimization, maxArrayLength, reconAux, incCond, dpTab]

/-- C10: with a non-negative floored budget, every task whose floored time
is 0 and whose importance is strictly positive is always a member of the
selected tasks, however small the budget. -/
theorem zeroCostTask_always_selected (tasks : List Task) (b : ℚ)
    (k : KnapsackResult) (i : ℕ) (hi : i < tasks.length) (hW : 0 ≤ ⌊b⌋)
    (hc : ⌊(tasks.getD i default).time⌋ = 0)
    (hv : 0 < (tasks.getD i default).importance)
    (hk : knapsackOptimization tasks b = .ok k) :
    tasks.getD i default ∈ k.selectedTasks := by
  obtain ⟨-, -, -, rfl⟩ := knapsackOptimization_ok_inv tasks b k hk
  exact zeroCost_mem_reconAux tasks ⌊b⌋ i hc hv tasks.length hi ⌊b⌋ hW (le_refl _)

/-- C10 witness: a zero-budget call still selects both zero-floored-time
tasks. -/
theorem zeroCostTask_always_selected_witness :
    (([⟨1, 1/2, false⟩, ⟨2, 0, false⟩] : List Task).getD 0 default) ∈
      KnapsackResult.selectedTasks ⟨[⟨2, 0, false⟩, ⟨1, 1/2, false⟩], some 3, 0⟩ := by
  apply zeroCostTask_always_selected [⟨1, 1/2, false⟩, ⟨2, 0, false⟩] 0 _ 0
  · norm_num
  · norm_num
  · norm_num [List.getD]
  · norm_num [List.getD]
  · norm_num [knapsackOptimization, maxArrayLength, reconAux, incCond, dpTab, List.getD]

/-- C2: whenever the general (non-fallback) path of the component runs,
the returned total value is the sum of the importance of exactly the
selected tasks, and the returned remaining time is the floored budget
minus the sum of the floored times of the selected tasks. -/
theorem generalPath_totals (tasks : List Task) (b : ℚ) (k : KnapsackResult)
    (hinc : tasks.filter (fun t => !t.completed) ≠ [])
    (hk : knapsackOptimization (tasks.filter (fun t => !t.completed)) b = .ok k)
    (hne : k.selectedTasks ≠ []) :
    select tasks b =
      .ok ⟨k.selectedTasks, some (sumVal k.selectedTasks),
           ((⌊b⌋ - sumTime k.selectedTasks : ℤ) : ℚ)⟩ := by
  obtain ⟨-, -, -, hkk⟩ :=
    knapsackOptimization_ok_inv (tasks.filter (fun t => !t.completed)) b k hk
  have hW : 0 ≤ ⌊b⌋ := by
    apply nonneg_of_reconAux_ne_nil (tasks.filter (fun t => !t.completed)) ⌊b⌋
      (tasks.filter (fun t => !t.completed)).length
    intro hnil
    apply hne
    rw [hkk]
    exact hnil
  obtain ⟨-, hval, hrem, -, -⟩ :=
    reconAux_spec (tasks.filter (fun t => !t.completed)) ⌊b⌋
      (tasks.filter (fun t => !t.completed)).length ⌊b⌋ hW (le_refl _)
  have h1 : k.totalValue = some (sumVal k.selectedTasks) := by
    rw [hkk]
    simp only [if_pos hW]
    rw [hval]
  have h2 : k.remainingTime = ⌊b⌋ - sumTime k.selectedTasks := by
    rw [hkk]
    simp only []
    rw [hrem]
  rw [select_general tasks b k hinc hk hne, h1, h2]

/-- C2 witness. -/
theorem generalPath_totals_witness :
    select [⟨2, 3, false⟩] 5 =
      .ok ⟨KnapsackResult.selectedTasks ⟨[⟨2, 3, false⟩], some 2, 2⟩,
           some (sumVal (KnapsackResult.selectedTasks ⟨[⟨2, 3, false⟩], some 2, 2⟩)),
           ((⌊(5:ℚ)⌋ - sumTime (KnapsackResult.selectedTasks ⟨[⟨2, 3, false⟩], some 2, 2⟩) : ℤ) : ℚ)⟩ := by
  apply generalPath_totals [⟨2, 3, false⟩] 5
  · simp [List.filter]
  · norm_num [knapsackOptimization, maxArrayLength, reconAux, incCond, dpTab,
      List.getD, List.filter]
  · simp

/-- C6: on the DP path the selected tasks are listed in reverse input
order: they are the image of a strictly decreasing list of input indices. -/
theorem selected_reverse_input_order (tasks : List Task) (b : ℚ)
    (k : KnapsackResult) (hk : knapsackOptimization tasks b = .ok k) :
    ∃ idxs : List ℕ, idxs.Pairwise (fun a b => b < a) ∧
      (∀ j ∈ idxs, j < tasks.length) ∧
      k.selectedTasks = idxs.map (fun j => tasks.getD j default) := by
  obtain ⟨-, -, -, rfl⟩ := knapsackOptimization_ok_inv tasks b k hk
  refine ⟨reconIdx tasks ⌊b⌋ tasks.length ⌊b⌋, reconIdx_sorted tasks ⌊b⌋ _ _,
    fun j hj => reconIdx_lt tasks ⌊b⌋ _ _ j hj, ?_⟩
  exact reconAux_fst_eq_map_reconIdx tasks ⌊b⌋ tasks.length ⌊b⌋

/-- C6 witness. -/
theorem selected_reverse_input_order_witness :
    ∃ idxs : List ℕ, idxs.Pairwise (fun a b => b < a) ∧
      (∀ j ∈ idxs, j < ([⟨1, 1, false⟩, ⟨2, 1, false⟩] : List Task).length) ∧
      KnapsackResult.selectedTasks ⟨[⟨2, 1, false⟩, ⟨1, 1, false⟩], some 3, 0⟩ =
        idxs.map (fun j => ([⟨1, 1, false⟩, ⟨2, 1, false⟩] : List Task).getD j default) := by
  apply selected_reverse_input_order [⟨1, 1, false⟩, ⟨2, 1, false⟩] 2
  norm_num [knapsackOptimization, maxArrayLength, reconAux, incCond, dpTab, List.getD]

/-- C5: on an empty task list the selection returns no tasks, total value
0, and the original un-floored budget as remaining time, for every budget. -/
theorem select_empty (b : ℚ) : select [] b = .ok ⟨[], some 0, b⟩ := rfl

/-- C7 counterexample: a finite negative budget with floor at most -2
makes the dp-row construction Array(W+1) raise a RangeError, so the code
does fail on well-typed input. -/
theorem select_neg_budget_error :
    select [⟨1, 1, false⟩] (-2) = .error .rangeError := by
  apply select_error
  · simp [List.filter]
  · apply knapsackOptimization_error
    norm_num

/-- C7 amended: the selection completes without an error provided the two
array lengths are valid, i.e. -1 ≤ floor(budget) and both floor(budget)+1
and the task count + 1 are at most the maximal array length. -/
theorem select_total_on_valid_budget (tasks : List Task) (b : ℚ)
    (h1 : -1 ≤ ⌊b⌋) (h2 : ⌊b⌋ + 1 ≤ maxArrayLength)
    (h3 : (tasks.length : ℤ) + 1 ≤ maxArrayLength) :
    ∃ r, select tasks b = .ok r := by
  by_cases hinc : tasks.filter (fun t => !t.completed) = []
  · refine ⟨⟨[], some 0, b⟩, ?_⟩
    unfold select
    rw [if_pos (by simpa [List.isEmpty_iff] using hinc)]
  · have h3f : ((tasks.filter (fun t => !t.completed)).length : ℤ) + 1 ≤
        maxArrayLength := by
      have := List.length_filter_le (fun t => !t.completed) tasks
      omega
    have hk := knapsackOptimization_ok (tasks.filter (fun t => !t.completed)) b h1 h2 h3f
    by_cases hsel : (reconAux (tasks.filter (fun t => !t.completed)) ⌊b⌋
        (tasks.filter (fun t => !t.completed)).length ⌊b⌋).1 = []
    · refine ⟨_, select_fallback tasks b _ hinc hk ?_⟩
      exact hsel
    · refine ⟨_, select_general tasks b _ hinc hk ?_⟩
      exact hsel

/-- C7 witness. -/
theorem select_total_on_valid_budget_witness :
    ∃ r, select [⟨1, 1, false⟩] 1 = .ok r := by
  apply select_total_on_valid_budget
  · norm_num
  · norm_num [maxArrayLength]
  · norm_num [maxArrayLength]

/-- C3 counterexample: on the claim's own degenerate example the fallback
reports remainingTime = budget - task.time = -20, not the claimed 0. -/
theorem fallback_remaining_not_zero :
    select [⟨5, 10, false⟩, ⟨8, 20, false⟩] 0 =
      .ok ⟨[⟨8, 20, false⟩], some 8, -20⟩ ∧ (-20 : ℚ) ≠ 0 := by
  constructor
  · norm_num [select, knapsackOptimization, reconAux, incCond, dpTab,
      maxArrayLength, mostImportantTask, strictlyBetterFB, List.filter, List.getD]
  · norm_num

/-- C3 amended: if the floored budget is -1, or it is non-negative and
every incomplete task's floored time exceeds it, the selection returns
exactly one task, one of maximal importance with ties broken by lowest
time, and reports budget - task.time (not 0) as the remaining time. -/
theorem fallback_single_best_task (tasks : List Task) (b : ℚ)
    (hinc : tasks.filter (fun t => !t.completed) ≠ [])
    (h2 : ⌊b⌋ + 1 ≤ maxArrayLength)
    (h3 : (tasks.length : ℤ) + 1 ≤ maxArrayLength)
    (hdeg : ⌊b⌋ = -1 ∨ (0 ≤ ⌊b⌋ ∧
      ∀ t ∈ tasks.filter (fun t => !t.completed), ⌊b⌋ < ⌊t.time⌋)) :
    ∃ h : Task, select tasks b = .ok ⟨[h], some h.importance, b - h.time⟩ ∧
      h ∈ tasks.filter (fun t => !t.completed) ∧
      ∀ s ∈ tasks.filter (fun t => !t.completed),
        s.importance < h.importance ∨
          (s.importance = h.importance ∧ h.time ≤ s.time) := by
  have h1 : -1 ≤ ⌊b⌋ := by rcases hdeg with h | ⟨h, -⟩ <;> omega
  have h3f : ((tasks.filter (fun t => !t.completed)).length : ℤ) + 1 ≤
      maxArrayLength := by
    have := List.length_filter_le (fun t => !t.completed) tasks
    omega
  have hk := knapsackOptimization_ok (tasks.filter (fun t => !t.completed)) b h1 h2 h3f
  have hsel : (reconAux (tasks.filter (fun t => !t.completed)) ⌊b⌋
      (tasks.filter (fun t => !t.completed)).length ⌊b⌋).1 = [] := by
    rcases hdeg with h | ⟨-, hall⟩
    · rw [reconAux_of_neg _ _ _ ⌊b⌋ (by omega)]
    · rw [reconAux_of_infeasible _ _ hall _ ⌊b⌋]
  refine ⟨mostImportantTask (tasks.filter (fun t => !t.completed)),
    select_fallback tasks b _ hinc hk hsel,
    mostImportantTask_mem _ hinc, ?_⟩
  intro s hs
  have hnb := mostImportantTask_best _ s hs
  unfold strictlyBetterFB at hnb
  push_neg at hnb
  obtain ⟨ha, hb⟩ := hnb
  rcases lt_or_eq_of_le ha with h | h
  · exact Or.inl h
  · exact Or.inr ⟨h, hb h⟩

/-- C3 witness, on the claim's tie-break example: equal importance, the
shorter task wins, remaining time is 0 - 1 = -1. -/
theorem fallback_single_best_task_witness :
    ∃ h : Task, select [⟨5, 3, false⟩, ⟨5, 1, false⟩] 0 =
        .ok ⟨[h], some h.importance, 0 - h.time⟩ ∧
      h ∈ ([⟨5, 3, false⟩, ⟨5, 1, false⟩] : List Task).filter (fun t => !t.completed) ∧
      ∀ s ∈ ([⟨5, 3, false⟩, ⟨5, 1, false⟩] : List Task).filter (fun t => !t.completed),
        s.importance < h.importance ∨
          (s.importance = h.importance ∧ h.time ≤ s.time) := by
  apply fallback_single_best_task
  · simp [List.filter]
  · norm_num [maxArrayLength]
  · norm_num [maxArrayLength]
  · right
    constructor
    · norm_num
    · intro t ht
      simp only [List.filter_cons, List.filter_nil, Bool.not_false, if_true,
        List.mem_cons, List.not_mem_nil, or_false] at ht
      rcases ht with h | h <;> subst h <;> norm_num

/-- C4 counterexample: two identical tasks whose floored time is 0 (time
1/2) and budget equal to one task's time - both tasks are selected, not
exactly one. -/
theorem dpTie_bothSelected :
    knapsackOptimization [⟨1, 1/2, false⟩, ⟨1, 1/2, false⟩] (1/2) =
      .ok ⟨[⟨1, 1/2, false⟩, ⟨1, 1/2, false⟩], some 2, 0⟩ ∧
    ([⟨1, 1/2, false⟩, ⟨1, 1/2, false⟩] : List Task).length ≠ 1 := by
  constructor
  · norm_num [knapsackOptimization, reconAux, incCond, dpTab, maxArrayLength, List.getD]
  · norm_num

/-- C4 amended: for two identical tasks with strictly positive importance
and floored time at least 1, and budget equal to one task's time, exactly
one task (the first) is selected. -/
theorem dpTie_exactlyOne (v t : ℚ) (hv : 0 < v) (ht1 : 1 ≤ ⌊t⌋)
    (ht2 : ⌊t⌋ + 1 ≤ maxArrayLength) :
    knapsackOptimization [⟨v, t, false⟩, ⟨v, t, false⟩] t =
      .ok ⟨[⟨v, t, false⟩], some v, 0⟩ := by
  have hg0 : ([⟨v, t, false⟩, ⟨v, t, false⟩] : List Task).getD 0 default =
      ⟨v, t, false⟩ := rfl
  have hg1 : ([⟨v, t, false⟩, ⟨v, t, false⟩] : List Task).getD 1 default =
      ⟨v, t, false⟩ := rfl
  have hdp0 : ∀ w : ℤ, dpTab [⟨v, t, false⟩, ⟨v, t, false⟩] ⌊t⌋ 0 w = 0 :=
    fun _ => rfl
  have hnc00 : ¬ incCond [⟨v, t, false⟩, ⟨v, t, false⟩] ⌊t⌋ 0 0 := by
    intro hcon
    unfold incCond at hcon
    rw [hg0] at hcon
    simp only [time_mk, importance_mk] at hcon
    have h3 := hcon.2.2.1
    omega
  have hdp10 : dpTab [⟨v, t, false⟩, ⟨v, t, false⟩] ⌊t⌋ 1 0 = 0 := by
    rw [dpTab_succ, if_neg hnc00]
    exact hdp0 0
  have hc0W : incCond [⟨v, t, false⟩, ⟨v, t, false⟩] ⌊t⌋ 0 ⌊t⌋ := by
    unfold incCond
    rw [hg0]
    simp only [time_mk, importance_mk]
    refine ⟨by omega, le_refl _, le_refl _, by omega, ?_⟩
    simp only [hdp0]
    linarith
  have hdp1W : dpTab [⟨v, t, false⟩, ⟨v, t, false⟩] ⌊t⌋ 1 ⌊t⌋ = v := by
    rw [dpTab_succ, if_pos hc0W, hg0]
    simp only [time_mk, importance_mk, hdp0]
    ring
  have hnc1W : ¬ incCond [⟨v, t, false⟩, ⟨v, t, false⟩] ⌊t⌋ 1 ⌊t⌋ := by
    intro hcon
    unfold incCond at hcon
    rw [hg1] at hcon
    simp only [time_mk, importance_mk] at hcon
    have h5 := hcon.2.2.2.2
    simp only [sub_self] at h5
    rw [hdp1W, hdp10] at h5
    simp only [add_zero, lt_self_iff_false] at h5
  have hrec : reconAux [⟨v, t, false⟩, ⟨v, t, false⟩] ⌊t⌋ 2 ⌊t⌋ =
      ([⟨v, t, false⟩], 0) := by
    show reconAux [⟨v, t, false⟩, ⟨v, t, false⟩] ⌊t⌋ (1 + 1) ⌊t⌋ = _
    rw [reconAux, if_neg hnc1W, reconAux, if_pos hc0W, hg0]
    simp only [reconAux, sub_self]
  have hdp2W : dpTab [⟨v, t, false⟩, ⟨v, t, false⟩] ⌊t⌋ 2 ⌊t⌋ = v := by
    show dpTab [⟨v, t, false⟩, ⟨v, t, false⟩] ⌊t⌋ (1 + 1) ⌊t⌋ = v
    rw [dpTab_succ, if_neg hnc1W, hdp1W]
  have hk := knapsackOptimization_ok [⟨v, t, false⟩, ⟨v, t, false⟩] t
    (by omega) ht2 (by norm_num [maxArrayLength])
  rw [hk]
  have hlen : ([⟨v, t, false⟩, ⟨v, t, false⟩] : List Task).length = 2 := rfl
  rw [hlen, hrec, if_pos (show (0:ℤ) ≤ ⌊t⌋ by omega), hdp2W]

/-- C4 amended witness. -/
theorem dpTie_exactlyOne_witness :
    knapsackOptimization [⟨1, 2, false⟩, ⟨1, 2, false⟩] 2 =
      .ok ⟨[⟨1, 2, false⟩], some 1, 0⟩ := by
  apply dpTie_exactlyOne
  · norm_num
  · norm_num
  · norm_num [maxArrayLength]

/-- C1 counterexample: with a zero-importance and a negative-importance
task (all finite, budget 10 > 0, one task feasible) the DP selects
nothing, the fallback picks the infeasible importance-0 task, and the
returned selection has total floored time 100 > 10. -/
theorem select_fallback_infeasible_result :
    select [⟨0, 100, false⟩, ⟨-1, 1, false⟩] 10 =
      .ok ⟨[⟨0, 100, false⟩], some 0, -90⟩ ∧
    ¬ sumTime [(⟨0, 100, false⟩ : Task)] ≤ ⌊(10:ℚ)⌋ := by
  constructor
  · norm_num [select, knapsackOptimization, reconAux, incCond, dpTab,
      maxArrayLength, mostImportantTask, strictlyBetterFB, List.filter, List.getD]
  · norm_num [sumTime]

/-- C1 amended: for non-empty lists of incomplete tasks with strictly
positive importance and non-negative times, a budget with positive floor
within the array-length limit, and at least one feasible task, the
selection succeeds, is feasible, and no feasible sub-selection of the
input beats it in total importance. -/
theorem select_optimal (tasks : List Task) (b : ℚ)
    (hne : tasks ≠ [])
    (hcomp : ∀ t ∈ tasks, t.completed = false)
    (hval : ∀ t ∈ tasks, 0 < t.importance)
    (htime : ∀ t ∈ tasks, 0 ≤ t.time)
    (hW : 0 < ⌊b⌋) (h2 : ⌊b⌋ + 1 ≤ maxArrayLength)
    (h3 : (tasks.length : ℤ) + 1 ≤ maxArrayLength)
    (hfeas : ∃ t ∈ tasks, ⌊t.time⌋ ≤ ⌊b⌋) :
    ∃ r : SelectionResult, select tasks b = .ok r ∧
      r.selectedTasks.reverse.Sublist tasks ∧
      sumTime r.selectedTasks ≤ ⌊b⌋ ∧
      ∀ S : List Task, S.Sublist tasks → sumTime S ≤ ⌊b⌋ →
        sumVal S ≤ sumVal r.selectedTasks := by
  have hfilter : tasks.filter (fun t => !t.completed) = tasks := by
    rw [List.filter_eq_self]
    intro t ht
    rw [hcomp t ht]
    rfl
  have hW0 : (0:ℤ) ≤ ⌊b⌋ := le_of_lt hW
  obtain ⟨hsub, hvalEq, hrem, hlo, -⟩ :=
    reconAux_spec tasks ⌊b⌋ tasks.length ⌊b⌋ hW0 (le_refl _)
  rw [List.take_length] at hsub
  obtain ⟨t0, ht0mem, ht0time⟩ := hfeas
  have hlb : sumVal [t0] ≤ dpTab tasks ⌊b⌋ tasks.length ⌊b⌋ := by
    apply sumVal_le_dpTab tasks ⌊b⌋ htime tasks.length ⌊b⌋ hW0 (le_refl _) [t0]
    · rw [List.take_length]
      exact List.singleton_sublist.mpr ht0mem
    · rw [sumTime_cons, sumTime_nil, add_zero]
      exact ht0time
  have hlb2 : 0 < dpTab tasks ⌊b⌋ tasks.length ⌊b⌋ := by
    have himp := hval t0 ht0mem
    rw [sumVal_cons, sumVal_nil, add_zero] at hlb
    linarith
  have hselne : (reconAux tasks ⌊b⌋ tasks.length ⌊b⌋).1 ≠ [] := by
    intro hnil
    rw [hnil, sumVal_nil] at hvalEq
    linarith
  have hk := knapsackOptimization_ok tasks b (by omega) h2 h3
  have hksel := select_general tasks b
    ⟨(reconAux tasks ⌊b⌋ tasks.length ⌊b⌋).1,
     if 0 ≤ ⌊b⌋ then some (dpTab tasks ⌊b⌋ tasks.length ⌊b⌋) else none,
     (reconAux tasks ⌊b⌋ tasks.length ⌊b⌋).2⟩
    (by rw [hfilter]; exact hne) (by rw [hfilter]; exact hk) hselne
  refine ⟨_, hksel, hsub, ?_, ?_⟩
  · show sumTime (reconAux tasks ⌊b⌋ tasks.length ⌊b⌋).1 ≤ ⌊b⌋
    omega
  · intro S hS hSt
    show sumVal S ≤ sumVal (reconAux tasks ⌊b⌋ tasks.length ⌊b⌋).1
    rw [hvalEq]
    exact sumVal_le_dpTab tasks ⌊b⌋ htime tasks.length ⌊b⌋ hW0 (le_refl _) S
      (by rw [List.take_length]; exact hS) hSt

/-- C1 amended witness. -/
theorem select_optimal_witness :
    ∃ r : SelectionResult, select [⟨2, 3, false⟩, ⟨1, 1, false⟩] 3 = .ok r ∧
      r.selectedTasks.reverse.Sublist [⟨2, 3, false⟩, ⟨1, 1, false⟩] ∧
      sumTime r.selectedTasks ≤ ⌊(3:ℚ)⌋ ∧
      ∀ S : List Task, S.Sublist [⟨2, 3, false⟩, ⟨1, 1, false⟩] →
        sumTime S ≤ ⌊(3:ℚ)⌋ → sumVal S ≤ sumVal r.selectedTasks := by
  apply select_optimal
  · simp
  · intro t ht
    simp only [List.mem_cons, List.not_mem_nil, or_false] at ht
    rcases ht with h | h <;> subst h <;> rfl
  · intro t ht
    simp only [List.mem_cons, List.not_mem_nil, or_false] at ht
    rcases ht with h | h <;> subst h <;> norm_num
  · intro t ht
    simp only [List.mem_cons, List.not_mem_nil, or_false] at ht
    rcases ht with h | h <;> subst h <;> norm_num
  · norm_num
  · norm_num [maxArrayLength]
  · norm_num [maxArrayLength]
  · exact ⟨⟨1, 1, false⟩, by simp, by norm_num⟩

/-- C8 counterexample: a task with importance +Infinity is not rejected;
the call completes normally and even selects the task. -/
theorem noValidation_infinite_importance :
    knapsackOptimizationJS [⟨.inf, .fin 1⟩] (.fin 10) =
      .ok ⟨[⟨.inf, .fin 1⟩], some .inf, 9⟩ := by
  norm_num [knapsackOptimizationJS, reconJS, dpTabJS, jsAdd, jsGt,
    maxArrayLength, List.getD]

/-- C8 amended: the call succeeds exactly when the budget is finite with
a valid dp-row length, regardless of any non-finite task fields; all
other budgets raise a RangeError at table construction, not an
InvalidArgument-class error. -/
theorem knapsackJS_ok_iff (tasks : List TaskJS) (b : JSNum)
    (hn : (tasks.length : ℤ) + 1 ≤ maxArrayLength) :
    (∃ r, knapsackOptimizationJS tasks b = .ok r) ↔
      (∃ q : ℚ, b = .fin q ∧ -1 ≤ ⌊q⌋ ∧ ⌊q⌋ + 1 ≤ maxArrayLength) := by
  cases b with
  | fin q =>
    constructor
    · rintro ⟨r, hr⟩
      simp only [knapsackOptimizationJS] at hr
      by_cases hg : ⌊q⌋ + 1 < 0 ∨ maxArrayLength < ⌊q⌋ + 1 ∨
          maxArrayLength < (tasks.length : ℤ) + 1
      · rw [if_pos hg] at hr
        exact absurd hr (by simp)
      · push_neg at hg
        exact ⟨q, rfl, by omega, by omega⟩
    · rintro ⟨q2, heq, hq1, hq2⟩
      rw [JSNum.fin.injEq] at heq
      subst heq
      have hok : knapsackOptimizationJS tasks (.fin q) =
          .ok ⟨(reconJS tasks ⌊q⌋ tasks.length ⌊q⌋).1,
               if 0 ≤ ⌊q⌋ then some (dpTabJS tasks ⌊q⌋ tasks.length ⌊q⌋)
               else none,
               (reconJS tasks ⌊q⌋ tasks.length ⌊q⌋).2⟩ := by
        simp only [knapsackOptimizationJS]
        rw [if_neg]
        push_neg
        exact ⟨by omega, by omega, by omega⟩
      exact ⟨_, hok⟩
  | nan =>
    simp [knapsackOptimizationJS]
  | inf =>
    simp [knapsackOptimizationJS]
  | ninf =>
    simp [knapsackOptimizationJS]

/-- C8 amended witness. -/
theorem knapsackJS_ok_iff_witness :
    (∃ r, knapsackOptimizationJS [] .nan = .ok r) ↔
      (∃ q : ℚ, JSNum.nan = .fin q ∧ -1 ≤ ⌊q⌋ ∧ ⌊q⌋ + 1 ≤ maxArrayLength) := by
  apply knapsackJS_ok_iff
  norm_num [maxArrayLength]

end SmartPrioritizer
